import Mathlib

/-!
Shallow embedding of the segment repository (`src/waveform-segments.js`): the
`WaveformSegments` class managing an ordered array of segments plus an
id-keyed lookup object, with batch add, predicate-driven removal and query
operations.  JavaScript numbers are modelled as rationals, the string-keyed
`_segmentsById` object as an association list, and the host's event channel
(`peaks.emit`) as explicit event values returned by the mutating operations.
-/

/-- Segment entity.  Modelled from the spec: the `Segment` class lives in
`segment.js`, which is not part of the available source; per spec §3 it
carries `id`, `startTime`, `endTime`, `editable`, `color` and `labelText`,
and the factory-supplied fields pass through into the entity unchanged. -/
structure Segment where
  id : String
  startTime : Rat
  endTime : Rat
  editable : Bool
  color : String
  labelText : String
deriving Repr, DecidableEq, Inhabited

/-- Caller-supplied segment descriptor (`SegmentOptions` in the source).
`none` models an absent, `undefined` or `null` field, as tested by
`isNullOrUndefined`. -/
structure SegmentOptions where
  id : Option String := none
  startTime : Rat := 0
  endTime : Rat := 0
  editable : Option Bool := none
  color : Option String := none
  labelText : Option String := none
deriving Repr, DecidableEq

/-- Argument value passed to `add`: either a descriptor object or an array of
descriptor objects (the two shapes `add` distinguishes with `Array.isArray`). -/
inductive JsVal where
  | obj (options : SegmentOptions)
  | arr (options : List SegmentOptions)
deriving Repr, DecidableEq

/-- Host configuration consumed by the repository (`peaks.options`). -/
structure PeaksOptions where
  randomizeSegmentColor : Bool
  segmentColor : String
deriving Repr, DecidableEq

/-- State of a `WaveformSegments` instance: the `_segments` array, the
`_segmentsById` dictionary and the two counters, plus the host options the
instance reads through `this._peaks`. -/
structure WaveformSegments where
  options : PeaksOptions
  segments : List Segment
  segmentsById : List (String × Segment)
  segmentIdCounter : Nat
  colorIndex : Nat
deriving Repr, DecidableEq

/-- Lookup in a JS object used as a dictionary (`obj[k]`, `undefined` as
`none`). -/
def dictGet (m : List (String × Segment)) (k : String) : Option Segment :=
  (m.find? (fun p => p.1 == k)).map (fun p => p.2)

/-- Key-membership test.  Modelled from the spec: `objectHasProperty` is
defined in `utils.js`, absent from the available source; it is the standard
own-property test on the dictionary object. -/
def dictHas (m : List (String × Segment)) (k : String) : Bool :=
  m.any (fun p => p.1 == k)

/-- Assignment `obj[k] = v`: replaces the entry when the key is present,
otherwise appends a new one (JS objects keep insertion order). -/
def dictInsert (m : List (String × Segment)) (k : String) (v : Segment) :
    List (String × Segment) :=
  if dictHas m k then m.map (fun p => if p.1 == k then (k, v) else p)
  else m ++ [(k, v)]

/-- Deletion `delete obj[k]`. -/
def dictDelete (m : List (String × Segment)) (k : String) :
    List (String × Segment) :=
  m.filter (fun p => !(p.1 == k))

/-- Decimal string of a natural number: models JavaScript's number-to-string
coercion in `'peaks.segment.' + this._segmentIdCounter++` (the counter is
always a nonnegative integer, so its JS string is its decimal digits). -/
def natToString (n : Nat) : String :=
  if n = 0 then "0"
  else (((Nat.digits 10 n).map Nat.digitChar).reverse).asString

/-- Fresh repository, as built by the `WaveformSegments` constructor. -/
def initialState (peaksOptions : PeaksOptions) : WaveformSegments :=
  { options := peaksOptions
    segments := []
    segmentsById := []
    segmentIdCounter := 0
    colorIndex := 0 }

/-- The private `_getNextSegmentId`: returns
`'peaks.segment.' + this._segmentIdCounter++` (post-increment). -/
def _getNextSegmentId (st : WaveformSegments) : String × WaveformSegments :=
  ("peaks.segment." ++ natToString st.segmentIdCounter,
   { st with segmentIdCounter := st.segmentIdCounter + 1 })

/-- The fixed color palette. -/
def colors : List String :=
  ["#001f3f", "#0074d9", "#7fdbff", "#39cccc", "#ffdc00",
   "#ff851b", "#ff4136", "#85144b", "#f012be", "#b10dc9"]

/-- The private `_getSegmentColor`: with `randomizeSegmentColor` set, advance
the color cursor (pre-increment, wrapping to `0` at the palette length) and
return the palette entry at the new cursor; otherwise return the configured
default color. -/
def _getSegmentColor (st : WaveformSegments) : String × WaveformSegments :=
  if st.options.randomizeSegmentColor then
    let i := if st.colorIndex + 1 == colors.length then 0 else st.colorIndex + 1
    (colors.getD i "", { st with colorIndex := i })
  else
    (st.options.segmentColor, st)

/-- Normalization of a descriptor object: the body of `_createSegment` after
the `isObject` guard.  Fills the `id`, `color`, `labelText` and `editable`
defaults in that order; `startTime` and `endTime` pass through into the
`Segment` entity (whose constructor, in `segment.js`, is outside the
available source; per spec §4.2 caller-supplied fields pass through
unchanged). -/
def createSegmentOpts (st : WaveformSegments) (options : SegmentOptions) :
    Segment × WaveformSegments :=
  let idSt := match options.id with
    | some i => (i, st)
    | none => _getNextSegmentId st
  let colorSt := match options.color with
    | some c => (c, idSt.2)
    | none => _getSegmentColor idSt.2
  ({ id := idSt.1
     startTime := options.startTime
     endTime := options.endTime
     editable := options.editable.getD false
     color := colorSt.1
     labelText := options.labelText.getD "" }, colorSt.2)

/-- The private `_createSegment`: throws a TypeError on a non-object argument
(the `isObject` guard; an array is not a plain key-value object — modelled
from the spec's "not itself a structured key-value object", `isObject` being
in `utils.js`), then normalizes the descriptor. -/
def _createSegment (st : WaveformSegments) :
    JsVal → Except String (Segment × WaveformSegments)
  | JsVal.arr _ =>
    Except.error "peaks.segments.add(): expected a Segment object parameter"
  | JsVal.obj options => Except.ok (createSegmentOpts st options)

/-- The private `_addSegment`: push onto `_segments` and index by id. -/
def _addSegment (st : WaveformSegments) (segment : Segment) : WaveformSegments :=
  { st with
    segments := st.segments ++ [segment]
    segmentsById := dictInsert st.segmentsById segment.id segment }

/-- Notification emitted on the host's event channel (`peaks.emit`). -/
inductive Event where
  | segmentsAdd (segments : List Segment)
  | segmentsRemove (segments : List Segment)
  | segmentsRemoveAll
deriving Repr, DecidableEq

/-- Result of the public `add`: on success the new state plus the single
emitted notification; on an exception, the error message plus the state left
behind by the throw (counter advances made by normalization persist on the
instance; the throw unwinds before any insertion or emission, so an erring
`add` carries no event). -/
inductive AddResult where
  | ok (st : WaveformSegments) (ev : Event)
  | err (msg : String) (st : WaveformSegments)
deriving Repr, DecidableEq

/-- The `segments.map(...)` step of `add`: normalize each value in order via
`_createSegment` and check its id against the live `_segmentsById` index,
throwing `duplicate id` on a collision.  The first thrown error aborts the
whole map; the state at that moment is carried by the `error` case. -/
def normalizeBatch (st : WaveformSegments) :
    List JsVal →
    Except (String × WaveformSegments) (List Segment × WaveformSegments)
  | [] => Except.ok ([], st)
  | v :: rest =>
    match _createSegment st v with
    | Except.error msg => Except.error (msg, st)
    | Except.ok (segment, st1) =>
      if dictHas st1.segmentsById segment.id then
        Except.error ("peaks.segments.add(): duplicate id", st1)
      else
        match normalizeBatch st1 rest with
        | Except.error e => Except.error e
        | Except.ok (segs, st2) => Except.ok (segment :: segs, st2)

/-- Argument collection in `add`: if the first argument is an array it is the
whole batch; otherwise the positional arguments themselves form the batch
(`Array.isArray(arguments[0]) ? arguments[0] : slice(arguments)`). -/
def collectArgs : List JsVal → List JsVal
  | JsVal.arr options :: _ => options.map JsVal.obj
  | args => args

/-- The public `add`: collect the arguments, normalize and validate the batch
(`map`), then insert every segment (`forEach` over `_addSegment`) and emit
one `segments.add` notification carrying the full batch. -/
def add (st : WaveformSegments) (args : List JsVal) : AddResult :=
  match normalizeBatch st (collectArgs args) with
  | Except.error (msg, st1) => AddResult.err msg st1
  | Except.ok (segs, st1) =>
    AddResult.ok (segs.foldl _addSegment st1) (Event.segmentsAdd segs)

/-- The public `getSegments`: returns the `_segments` array. -/
def getSegments (st : WaveformSegments) : List Segment :=
  st.segments

/-- The public `getSegment`: lookup by id, `null` (here `none`) when absent. -/
def getSegment (st : WaveformSegments) (id : String) : Option Segment :=
  dictGet st.segmentsById id

/-- The public `getSegmentsAtTime`: the filter of `_segments` by
`time >= segment.startTime && time < segment.endTime`. -/
def getSegmentsAtTime (st : WaveformSegments) (time : Rat) : List Segment :=
  st.segments.filter (fun segment =>
    decide (time ≥ segment.startTime) && decide (time < segment.endTime))

/-- Index scan of `_findSegment`, with the running position explicit. -/
def findIndexesFrom (predicate : Segment → Bool) :
    List Segment → Nat → List Nat
  | [], _ => []
  | s :: rest, i =>
    if predicate s then i :: findIndexesFrom predicate rest (i + 1)
    else findIndexesFrom predicate rest (i + 1)

/-- The private `_findSegment`: the ascending indexes of the elements of
`_segments` satisfying the predicate. -/
def _findSegment (st : WaveformSegments) (predicate : Segment → Bool) :
    List Nat :=
  findIndexesFrom predicate st.segments 0

/-- Loop of `_removeIndexes`, acting on the `_segments` array, the
`_segmentsById` object and the `removed` accumulator.  Each target index is
compensated by the number of elements already removed; `splice` extracts the
element at that position, its id is deleted from the index, and it is pushed
onto `removed`.  A position beyond the array would make `itemRemoved`
`undefined` and reading `itemRemoved.id` throw a TypeError — modelled by
`none` (unreachable for the index lists `_findSegment` produces). -/
def removeIndexesGo :
    List Nat → List Segment → List (String × Segment) → List Segment →
    Option (List Segment × List Segment × List (String × Segment))
  | [], segs, byId, removed => some (removed, segs, byId)
  | idx :: rest, segs, byId, removed =>
    match segs[idx - removed.length]? with
    | none => none
    | some itemRemoved =>
      removeIndexesGo rest (segs.eraseIdx (idx - removed.length))
        (dictDelete byId itemRemoved.id) (removed ++ [itemRemoved])

/-- The private `_removeSegments`: find the matching indexes, remove them
(`_removeIndexes`), emit one `segments.remove` notification carrying the
removed segments, and return them. -/
def _removeSegments (st : WaveformSegments) (predicate : Segment → Bool) :
    Option (List Segment × WaveformSegments × Event) :=
  match removeIndexesGo (_findSegment st predicate) st.segments
      st.segmentsById [] with
  | none => none
  | some (removed, segs, byId) =>
    some (removed, { st with segments := segs, segmentsById := byId },
      Event.segmentsRemove removed)

/-- The public `remove`: removal by equality with the given segment (the JS
`===` identity test, modelled as equality of the pure segment value). -/
def remove (st : WaveformSegments) (segment : Segment) :
    Option (List Segment × WaveformSegments × Event) :=
  _removeSegments st (fun s => s == segment)

/-- The public `removeById`. -/
def removeById (st : WaveformSegments) (segmentId : String) :
    Option (List Segment × WaveformSegments × Event) :=
  _removeSegments st (fun segment => segment.id == segmentId)

/-- The public `removeByTime`: a non-number `endTime` is coerced to `0`; when
the resulting `endTime` is `> 0` both times must match exactly, otherwise
only `startTime` must match. -/
def removeByTime (st : WaveformSegments) (startTime : Rat)
    (endTime : Option Rat) :
    Option (List Segment × WaveformSegments × Event) :=
  let e := endTime.getD 0
  if e > 0 then
    _removeSegments st (fun segment =>
      segment.startTime == startTime && segment.endTime == e)
  else
    _removeSegments st (fun segment => segment.startTime == startTime)

/-- The public `removeAll`: reset both indexes to empty and emit
`segments.remove_all` (no payload). -/
def removeAll (st : WaveformSegments) : WaveformSegments × Event :=
  ({ st with segments := [], segmentsById := [] }, Event.segmentsRemoveAll)

/-- A public mutating operation, for whole-lifecycle statements. -/
inductive Op where
  | add (args : List JsVal)
  | remove (segment : Segment)
  | removeById (segmentId : String)
  | removeByTime (startTime : Rat) (endTime : Option Rat)
  | removeAll
deriving Repr, DecidableEq

/-- State after one public operation.  An `add` that throws leaves the state
the throw produced; the unreachable `none` of the removal operations falls
back to the input state. -/
def applyOp (st : WaveformSegments) : Op → WaveformSegments
  | Op.add args =>
    match add st args with
    | AddResult.ok st' _ => st'
    | AddResult.err _ st' => st'
  | Op.remove segment =>
    match remove st segment with
    | some (_, st', _) => st'
    | none => st
  | Op.removeById segmentId =>
    match removeById st segmentId with
    | some (_, st', _) => st'
    | none => st
  | Op.removeByTime startTime endTime =>
    match removeByTime st startTime endTime with
    | some (_, st', _) => st'
    | none => st
  | Op.removeAll => (removeAll st).1

/-- Run a sequence of public operations from a given state. -/
def runOpsFrom (st : WaveformSegments) (ops : List Op) : WaveformSegments :=
  ops.foldl applyOp st

/-- Run a sequence of public operations on a fresh repository. -/
def runOps (peaksOptions : PeaksOptions) (ops : List Op) : WaveformSegments :=
  runOpsFrom (initialState peaksOptions) ops

/-- The dual-index consistency invariant claimed by the spec (I1 and I2):
every ordered segment is indexed under its id, the sizes of the two indexes
match, and the ids in `_segments` are pairwise distinct. -/
def SegmentsInvariant (st : WaveformSegments) : Prop :=
  (∀ s ∈ st.segments, dictGet st.segmentsById s.id = some s) ∧
  st.segmentsById.length = st.segments.length ∧
  (st.segments.map Segment.id).Nodup

instance (st : WaveformSegments) : Decidable (SegmentsInvariant st) := by
  unfold SegmentsInvariant; infer_instance

/-- Internal representation invariant: the id index is exactly the ordered
list paired with its ids, and the ids are pairwise distinct. -/
def ReprInvariant (st : WaveformSegments) : Prop :=
  (st.segments.map Segment.id).Nodup ∧
  st.segmentsById = st.segments.map (fun s => (s.id, s))

/-- An `add` with this argument list either throws, or inserts segments whose
ids are pairwise distinct (rules out the intra-batch duplicate gap). -/
def batchIdsDistinct (st : WaveformSegments) (args : List JsVal) : Bool :=
  match normalizeBatch st (collectArgs args) with
  | Except.error _ => true
  | Except.ok (segs, _) => decide (segs.map Segment.id).Nodup

/-- An operation is benign at a state when, if it is an `add`, its batch has
pairwise-distinct ids (`batchIdsDistinct`); every other operation is benign. -/
def opOk (st : WaveformSegments) : Op → Bool
  | Op.add args => batchIdsDistinct st args
  | _ => true

/-- Every `add` in the operation sequence, at the state where it runs,
satisfies `batchIdsDistinct`. -/
def traceOk (st : WaveformSegments) : List Op → Bool
  | [] => true
  | op :: rest => opOk st op && traceOk (applyOp st op) rest

/-- Sequential deletion of the ids of the removed segments, in removal order,
as the `_removeIndexes` loop performs it on `_segmentsById`. -/
def dictDeleteAll (m : List (String × Segment)) (removed : List Segment) :
    List (String × Segment) :=
  removed.foldl (fun acc s => dictDelete acc s.id) m

/-- Two states agree on everything except the two counters. -/
def frameEq (st st' : WaveformSegments) : Prop :=
  st'.segments = st.segments ∧ st'.segmentsById = st.segmentsById ∧
  st'.options = st.options

theorem frameEq_refl (st : WaveformSegments) : frameEq st st :=
  ⟨rfl, rfl, rfl⟩

theorem frameEq_trans {a b c : WaveformSegments}
    (h1 : frameEq a b) (h2 : frameEq b c) : frameEq a c :=
  ⟨h2.1.trans h1.1, h2.2.1.trans h1.2.1, h2.2.2.trans h1.2.2⟩

theorem _getNextSegmentId_frame (st : WaveformSegments) :
    frameEq st (_getNextSegmentId st).2 := by
  unfold frameEq _getNextSegmentId
  simp

theorem _getSegmentColor_frame (st : WaveformSegments) :
    frameEq st (_getSegmentColor st).2 := by
  unfold frameEq _getSegmentColor
  split <;> simp

theorem createSegmentOpts_frame (st : WaveformSegments)
    (options : SegmentOptions) :
    frameEq st (createSegmentOpts st options).2 := by
  unfold createSegmentOpts
  cases options.id <;> cases options.color <;> simp only [] <;>
    first
      | exact frameEq_refl st
      | exact _getSegmentColor_frame st
      | exact _getNextSegmentId_frame st
      | exact frameEq_trans (_getNextSegmentId_frame st)
          (_getSegmentColor_frame _)

theorem getElem?_append_cons (pre : List Segment) (s : Segment)
    (rest : List Segment) : (pre ++ s :: rest)[pre.length]? = some s := by
  rw [List.getElem?_append_right (Nat.le_refl _)]
  simp

theorem eraseIdx_append_cons (pre : List Segment) (s : Segment)
    (rest : List Segment) :
    (pre ++ s :: rest).eraseIdx pre.length = pre ++ rest := by
  induction pre with
  | nil => rfl
  | cons a pre ih => simp [List.eraseIdx, ih]

theorem removeIndexesGo_spec (p : Segment → Bool) :
    ∀ (rest pre removed : List Segment) (byId : List (String × Segment)),
    removeIndexesGo (findIndexesFrom p rest (removed.length + pre.length))
        (pre ++ rest) byId removed
      = some (removed ++ rest.filter p,
              pre ++ rest.filter (fun s => !(p s)),
              dictDeleteAll byId (rest.filter p)) := by
  intro rest
  induction rest with
  | nil =>
    intro pre removed byId
    simp [findIndexesFrom, removeIndexesGo, dictDeleteAll]
  | cons s rest ih =>
    intro pre removed byId
    by_cases hp : p s
    · simp only [findIndexesFrom, if_pos hp, removeIndexesGo,
        Nat.add_sub_cancel_left, getElem?_append_cons, eraseIdx_append_cons]
      have h := ih pre (removed ++ [s]) (dictDelete byId s.id)
      simp only [List.length_append, List.length_cons, List.length_nil,
        Nat.add_right_comm removed.length 1 pre.length] at h
      rw [h]
      simp [hp, dictDeleteAll, List.append_assoc]
    · simp only [findIndexesFrom, if_neg hp]
      rw [Nat.add_assoc]
      have h := ih (pre ++ [s]) removed byId
      simp only [List.length_append, List.length_cons, List.length_nil,
        List.append_assoc, List.singleton_append] at h
      rw [h]
      simp [hp]

theorem _removeSegments_spec (st : WaveformSegments) (p : Segment → Bool) :
    _removeSegments st p =
      some (st.segments.filter p,
        { st with
          segments := st.segments.filter (fun s => !(p s)),
          segmentsById := dictDeleteAll st.segmentsById (st.segments.filter p) },
        Event.segmentsRemove (st.segments.filter p)) := by
  have h := removeIndexesGo_spec p st.segments [] [] st.segmentsById
  simp only [List.length_nil, List.nil_append, Nat.add_zero] at h
  unfold _removeSegments _findSegment
  rw [h]

theorem normalizeBatch_frame :
    ∀ (vs : List JsVal) (st : WaveformSegments),
      (∀ segs st1, normalizeBatch st vs = Except.ok (segs, st1) →
        frameEq st st1) ∧
      (∀ msg st1, normalizeBatch st vs = Except.error (msg, st1) →
        frameEq st st1) := by
  intro vs
  induction vs with
  | nil =>
    intro st
    refine ⟨fun segs st1 h => ?_, fun msg st1 h => ?_⟩
    · simp [normalizeBatch] at h
      rw [← h.2]
      exact frameEq_refl st
    · simp [normalizeBatch] at h
  | cons v rest ih =>
    intro st
    cases v with
    | arr options =>
      refine ⟨fun segs st1 h => ?_, fun msg st1 h => ?_⟩
      · simp [normalizeBatch, _createSegment] at h
      · simp [normalizeBatch, _createSegment] at h
        rw [← h.2]
        exact frameEq_refl st
    | obj options =>
      have hfr : frameEq st (createSegmentOpts st options).2 :=
        createSegmentOpts_frame st options
      rcases hcs : createSegmentOpts st options with ⟨segment, stA⟩
      rw [hcs] at hfr
      cases hd : dictHas stA.segmentsById segment.id with
      | true =>
        refine ⟨fun segs st1 h => ?_, fun msg st1 h => ?_⟩
        · simp [normalizeBatch, _createSegment, hcs, hd] at h
        · simp [normalizeBatch, _createSegment, hcs, hd] at h
          rw [← h.2]
          exact hfr
      | false =>
        refine ⟨fun segs st1 h => ?_, fun msg st1 h => ?_⟩
        · simp only [normalizeBatch, _createSegment, hcs, hd] at h
          rcases hnb : normalizeBatch stA rest with e | ⟨segs2, stB⟩
          · rw [hnb] at h
            simp at h
          · rw [hnb] at h
            simp at h
            rw [← h.2]
            exact frameEq_trans hfr ((ih stA).1 segs2 stB hnb)
        · simp only [normalizeBatch, _createSegment, hcs, hd] at h
          rcases hnb : normalizeBatch stA rest with ⟨msg2, stB⟩ | ok
          · rw [hnb] at h
            simp at h
            rw [← h.2]
            exact frameEq_trans hfr ((ih stA).2 msg2 stB hnb)
          · rw [hnb] at h
            simp at h

theorem dictHas_pairMap (segs : List Segment) (k : String) :
    dictHas (segs.map (fun t => (t.id, t))) k =
      segs.any (fun t => t.id == k) := by
  unfold dictHas
  induction segs with
  | nil => rfl
  | cons a segs ih => simp only [List.map_cons, List.any_cons, ih]

theorem dictInsert_pairMap_fresh (segs : List Segment) (s : Segment)
    (h : dictHas (segs.map (fun t => (t.id, t))) s.id = false) :
    dictInsert (segs.map (fun t => (t.id, t))) s.id s =
      (segs ++ [s]).map (fun t => (t.id, t)) := by
  unfold dictInsert
  rw [h]
  simp

theorem dictDelete_pairMap (segs : List Segment) (k : String) :
    dictDelete (segs.map (fun t => (t.id, t))) k =
      (segs.filter (fun t => !(t.id == k))).map (fun t => (t.id, t)) := by
  unfold dictDelete
  rw [List.filter_map]
  rfl

theorem dictDeleteAll_pairMap :
    ∀ (rem segs : List Segment),
      dictDeleteAll (segs.map (fun t => (t.id, t))) rem =
        (segs.filter (fun t => !(rem.any (fun r => t.id == r.id)))).map
          (fun t => (t.id, t)) := by
  intro rem
  induction rem with
  | nil => intro segs; simp [dictDeleteAll]
  | cons r rem ih =>
    intro segs
    have step : dictDeleteAll (segs.map (fun t => (t.id, t))) (r :: rem) =
        dictDeleteAll (dictDelete (segs.map (fun t => (t.id, t))) r.id) rem :=
      rfl
    rw [step, dictDelete_pairMap, ih, List.filter_filter]
    refine congrArg _ (List.filter_congr ?_)
    intro t ht
    simp [Bool.and_comm]

theorem dictGet_pairMap (segs : List Segment) (s : Segment)
    (hnd : (segs.map Segment.id).Nodup) (hs : s ∈ segs) :
    dictGet (segs.map (fun t => (t.id, t))) s.id = some s := by
  induction segs with
  | nil => cases hs
  | cons a segs ih =>
    rcases List.mem_cons.mp hs with rfl | hs2
    · unfold dictGet
      simp
    · have hne : a.id ≠ s.id := by
        intro he
        have hmem : s.id ∈ segs.map Segment.id := List.mem_map_of_mem _ hs2
        rw [← he] at hmem
        exact (List.nodup_cons.mp (by simpa using hnd)).1 hmem
      have htail : (segs.map Segment.id).Nodup :=
        (List.nodup_cons.mp (by simpa using hnd)).2
      unfold dictGet at ih ⊢
      simp only [List.map_cons, List.find?_cons]
      have hbeq : ((a.id, a).1 == s.id) = false := by
        simpa using hne
      rw [hbeq]
      exact ih htail hs2

theorem normalizeBatch_ok_fresh :
    ∀ (vs : List JsVal) (st : WaveformSegments) (segs : List Segment)
      (st1 : WaveformSegments),
      normalizeBatch st vs = Except.ok (segs, st1) →
      ∀ s ∈ segs, dictHas st.segmentsById s.id = false := by
  intro vs
  induction vs with
  | nil =>
    intro st segs st1 h
    simp [normalizeBatch] at h
    rw [h.1]
    simp
  | cons v rest ih =>
    intro st segs st1 h
    cases v with
    | arr options => simp [normalizeBatch, _createSegment] at h
    | obj options =>
      have hfr := createSegmentOpts_frame st options
      rcases hcs : createSegmentOpts st options with ⟨segment, stA⟩
      rw [hcs] at hfr
      cases hd : dictHas stA.segmentsById segment.id with
      | true => simp [normalizeBatch, _createSegment, hcs, hd] at h
      | false =>
        simp only [normalizeBatch, _createSegment, hcs, hd] at h
        rcases hnb : normalizeBatch stA rest with e | ⟨segs2, stB⟩
        · rw [hnb] at h
          simp at h
        · rw [hnb] at h
          simp at h
          rw [← h.1]
          intro s hs
          rcases List.mem_cons.mp hs with rfl | hs2
          · rw [← hfr.2.1]
            exact hd
          · have hf := ih stA segs2 stB hnb s hs2
            rw [hfr.2.1] at hf
            exact hf

theorem foldl_addSegment_spec :
    ∀ (segs : List Segment) (st : WaveformSegments),
      st.segmentsById = st.segments.map (fun t => (t.id, t)) →
      (∀ s ∈ segs, s.id ∉ st.segments.map Segment.id) →
      (segs.map Segment.id).Nodup →
      segs.foldl _addSegment st =
        { st with segments := st.segments ++ segs,
                  segmentsById :=
                    (st.segments ++ segs).map (fun t => (t.id, t)) } := by
  intro segs
  induction segs with
  | nil =>
    intro st hById _ _
    simp only [List.foldl_nil, List.append_nil]
    rw [← hById]
  | cons s segs ih =>
    intro st hById hfresh hnodup
    have hsid : s.id ∉ st.segments.map Segment.id :=
      hfresh s (List.mem_cons_self s segs)
    have hhas : dictHas (st.segments.map (fun t => (t.id, t))) s.id = false := by
      rw [dictHas_pairMap]
      apply List.any_eq_false.mpr
      intro t ht hbeq
      have he : t.id = s.id := by simpa using hbeq
      exact hsid (he ▸ List.mem_map_of_mem Segment.id ht)
    have hmp : (∀ x ∈ segs, ¬ x.id = s.id) ∧ (segs.map Segment.id).Nodup := by
      simpa using hnodup
    have hsid2 : s.id ∉ segs.map Segment.id := by
      intro hmem
      rcases List.mem_map.mp hmem with ⟨t, ht, hts⟩
      exact hmp.1 t ht hts
    have hnodup2 : (segs.map Segment.id).Nodup := hmp.2
    have hby2 : (_addSegment st s).segmentsById =
        (_addSegment st s).segments.map (fun t => (t.id, t)) := by
      simp only [_addSegment]
      rw [hById, dictInsert_pairMap_fresh st.segments s hhas]
    have hfresh2 : ∀ t ∈ segs,
        t.id ∉ (_addSegment st s).segments.map Segment.id := by
      intro t ht
      simp only [_addSegment, List.map_append, List.map_cons, List.map_nil]
      intro hmem
      rcases List.mem_append.mp hmem with hmem1 | hmem2
      · exact hfresh t (List.mem_cons_of_mem s ht) hmem1
      · have hts : t.id = s.id := by simpa using hmem2
        exact hsid2 (hts ▸ List.mem_map_of_mem Segment.id ht)
    have hmid := ih (_addSegment st s) hby2 hfresh2 hnodup2
    rw [List.foldl_cons, hmid]
    simp [_addSegment, List.append_assoc]

theorem frameEq_reprInvariant {st st1 : WaveformSegments}
    (hf : frameEq st st1) (h : ReprInvariant st) : ReprInvariant st1 := by
  unfold ReprInvariant at *
  rw [hf.1, hf.2.1]
  exact h

theorem removal_reprInvariant (st : WaveformSegments) (p : Segment → Bool)
    (h : ReprInvariant st) :
    ReprInvariant { st with
      segments := st.segments.filter (fun s => !(p s)),
      segmentsById := dictDeleteAll st.segmentsById (st.segments.filter p) } := by
  obtain ⟨hnd, hby⟩ := h
  constructor
  · exact List.Nodup.sublist
      (List.Sublist.map Segment.id (List.filter_sublist st.segments)) hnd
  · show dictDeleteAll st.segmentsById (st.segments.filter p) =
      (st.segments.filter (fun s => !(p s))).map (fun t => (t.id, t))
    rw [hby, dictDeleteAll_pairMap]
    refine congrArg _ (List.filter_congr ?_)
    intro t ht
    have hany : ((st.segments.filter p).any fun r => t.id == r.id) = p t := by
      cases hp : p t with
      | true =>
        apply List.any_eq_true.mpr
        exact ⟨t, List.mem_filter.mpr ⟨ht, hp⟩, by simp⟩
      | false =>
        apply List.any_eq_false.mpr
        intro r hr hbeq
        have hre : t.id = r.id := by simpa using hbeq
        have hrmem := List.mem_filter.mp hr
        have hrt : r = t :=
          List.inj_on_of_nodup_map hnd hrmem.1 ht hre.symm
        rw [hrt] at hrmem
        simp [hp] at hrmem
    rw [hany]

theorem batchIdsDistinct_ok (st : WaveformSegments) (args : List JsVal)
    (segs : List Segment) (st1 : WaveformSegments)
    (hb : batchIdsDistinct st args = true)
    (hnb : normalizeBatch st (collectArgs args) = Except.ok (segs, st1)) :
    (segs.map Segment.id).Nodup := by
  unfold batchIdsDistinct at hb
  rw [hnb] at hb
  simpa using hb

theorem applyOp_reprInvariant (st : WaveformSegments) (op : Op)
    (h : ReprInvariant st) (hok : opOk st op = true) :
    ReprInvariant (applyOp st op) := by
  cases op with
  | add args =>
    simp only [applyOp, add]
    rcases hnb : normalizeBatch st (collectArgs args) with ⟨msg, st1⟩ | ⟨segs, st1⟩
    · exact frameEq_reprInvariant ((normalizeBatch_frame _ st).2 msg st1 hnb) h
    · have hfr := (normalizeBatch_frame _ st).1 segs st1 hnb
      have hnodup := batchIdsDistinct_ok st args segs st1 hok hnb
      have hById1 : st1.segmentsById = st1.segments.map (fun t => (t.id, t)) := by
        rw [hfr.2.1, h.2, hfr.1]
      have hfresh : ∀ s ∈ segs, s.id ∉ st1.segments.map Segment.id := by
        intro s hs
        have hhas := normalizeBatch_ok_fresh _ st segs st1 hnb s hs
        rw [h.2, dictHas_pairMap] at hhas
        rw [hfr.1]
        intro hmem
        rcases List.mem_map.mp hmem with ⟨t, ht, hts⟩
        have hta : st.segments.any (fun t => t.id == s.id) = true :=
          List.any_eq_true.mpr ⟨t, ht, by simp [hts]⟩
        rw [hta] at hhas
        cases hhas
      show ReprInvariant (segs.foldl _addSegment st1)
      rw [foldl_addSegment_spec segs st1 hById1 hfresh hnodup]
      constructor
      · simp only [List.map_append]
        refine List.Nodup.append ?_ hnodup ?_
        · rw [hfr.1]
          exact h.1
        · intro a ha1 ha2
          rcases List.mem_map.mp ha2 with ⟨t, ht, hts⟩
          exact hfresh t ht (hts ▸ ha1)
      · rfl
  | remove segment =>
    simp only [applyOp, remove]
    rw [_removeSegments_spec st (fun s => s == segment)]
    exact removal_reprInvariant st _ h
  | removeById segmentId =>
    simp only [applyOp, removeById]
    rw [_removeSegments_spec st (fun segment => segment.id == segmentId)]
    exact removal_reprInvariant st _ h
  | removeByTime startTime endTime =>
    simp only [applyOp, removeByTime]
    by_cases hc : endTime.getD 0 > 0
    · rw [if_pos hc, _removeSegments_spec]
      exact removal_reprInvariant st _ h
    · rw [if_neg hc, _removeSegments_spec]
      exact removal_reprInvariant st _ h
  | removeAll =>
    simp only [applyOp, removeAll]
    exact ⟨by simp, by simp⟩

theorem runOpsFrom_reprInvariant :
    ∀ (ops : List Op) (st : WaveformSegments),
      ReprInvariant st → traceOk st ops = true →
      ReprInvariant (runOpsFrom st ops) := by
  intro ops
  induction ops with
  | nil => intro st h _; exact h
  | cons op ops ih =>
    intro st h htr
    rw [traceOk, Bool.and_eq_true] at htr
    exact ih (applyOp st op) (applyOp_reprInvariant st op h htr.1) htr.2

theorem reprInvariant_segmentsInvariant (st : WaveformSegments)
    (h : ReprInvariant st) : SegmentsInvariant st := by
  obtain ⟨hnd, hby⟩ := h
  refine ⟨?_, ?_, hnd⟩
  · intro s hs
    rw [hby]
    exact dictGet_pairMap st.segments s hnd hs
  · rw [hby, List.length_map]

theorem digitChar_inj_lt :
    ∀ a b : Nat, a < 10 → b < 10 → Nat.digitChar a = Nat.digitChar b → a = b := by
  intro a b ha hb
  interval_cases a <;> interval_cases b <;> decide

theorem mapDigitChar_inj :
    ∀ (l1 l2 : List Nat), (∀ d ∈ l1, d < 10) → (∀ d ∈ l2, d < 10) →
      l1.map Nat.digitChar = l2.map Nat.digitChar → l1 = l2 := by
  intro l1
  induction l1 with
  | nil =>
    intro l2 _ _ h
    cases l2 with
    | nil => rfl
    | cons b l2 => simp at h
  | cons a l1 ih =>
    intro l2 h1 h2 h
    cases l2 with
    | nil => simp at h
    | cons b l2 =>
      simp only [List.map_cons, List.cons.injEq] at h
      have hab := digitChar_inj_lt a b (h1 a (by simp)) (h2 b (by simp)) h.1
      rw [hab, ih l2 (fun d hd => h1 d (List.mem_cons_of_mem a hd))
        (fun d hd => h2 d (List.mem_cons_of_mem b hd)) h.2]

theorem natToString_injective : Function.Injective natToString := by
  have key : ∀ n : Nat, n ≠ 0 →
      (((Nat.digits 10 n).map Nat.digitChar).reverse).asString = "0" → False := by
    intro n hn h
    have hlist : ((Nat.digits 10 n).map Nat.digitChar).reverse = ['0'] :=
      List.asString_inj.mp h
    have hmap : (Nat.digits 10 n).map Nat.digitChar = ['0'] := by
      rw [← List.reverse_reverse (List.map Nat.digitChar (Nat.digits 10 n)),
        hlist]
      rfl
    have hdig : Nat.digits 10 n = [0] := by
      have h0 : ([0] : List Nat).map Nat.digitChar = ['0'] := rfl
      exact mapDigitChar_inj (Nat.digits 10 n) [0]
        (fun d hd => Nat.digits_lt_base (by norm_num) hd)
        (fun d hd => by simp at hd; omega) (hmap.trans h0.symm)
    have hzero : n = 0 := by
      have hof := Nat.ofDigits_digits 10 n
      rw [hdig] at hof
      simpa [Nat.ofDigits] using hof.symm
    exact hn hzero
  intro m n h
  unfold natToString at h
  by_cases hm : m = 0 <;> by_cases hn : n = 0
  · rw [hm, hn]
  · rw [if_pos hm, if_neg hn] at h
    exact absurd (key n hn h.symm) (by simp)
  · rw [if_neg hm, if_pos hn] at h
    exact absurd (key m hm h) (by simp)
  · rw [if_neg hm, if_neg hn] at h
    have hlist := List.asString_inj.mp h
    have hmap := List.reverse_injective hlist
    have hdig := mapDigitChar_inj (Nat.digits 10 m) (Nat.digits 10 n)
      (fun d hd => Nat.digits_lt_base (by norm_num) hd)
      (fun d hd => Nat.digits_lt_base (by norm_num) hd) hmap
    exact Nat.digits.injective 10 hdig

/-- The automatic id issued at counter value `n`, as `_getNextSegmentId`
builds it. -/
def autoSegmentId (n : Nat) : String :=
  "peaks.segment." ++ natToString n

theorem autoSegmentId_injective : Function.Injective autoSegmentId := by
  intro m n h
  apply natToString_injective
  unfold autoSegmentId at h
  have hd := congrArg String.data h
  simp only [String.data_append] at hd
  have hc := List.append_cancel_left hd
  cases hm : natToString m with
  | mk d1 =>
    cases hnn : natToString n with
    | mk d2 =>
      rw [hm, hnn] at hc
      simp only at hc
      rw [hc]

theorem _getSegmentColor_counter (st : WaveformSegments) :
    (_getSegmentColor st).2.segmentIdCounter = st.segmentIdCounter := by
  unfold _getSegmentColor
  split <;> rfl

theorem createSegmentOpts_counter (st : WaveformSegments)
    (options : SegmentOptions) :
    (createSegmentOpts st options).2.segmentIdCounter =
      (match options.id with
       | some _ => st.segmentIdCounter
       | none => st.segmentIdCounter + 1) := by
  unfold createSegmentOpts
  cases options.id <;> cases options.color <;>
    simp [_getNextSegmentId, _getSegmentColor_counter]

theorem createSegmentOpts_id_none (st : WaveformSegments)
    (options : SegmentOptions) (h : options.id = none) :
    (createSegmentOpts st options).1.id = autoSegmentId st.segmentIdCounter ∧
    (createSegmentOpts st options).2.segmentIdCounter =
      st.segmentIdCounter + 1 := by
  constructor
  · unfold createSegmentOpts autoSegmentId _getNextSegmentId
    rw [h]
  · rw [createSegmentOpts_counter, h]

theorem createSegmentOpts_counter_le (st : WaveformSegments)
    (options : SegmentOptions) :
    st.segmentIdCounter ≤ (createSegmentOpts st options).2.segmentIdCounter := by
  rw [createSegmentOpts_counter]
  cases options.id <;> simp [Nat.le_succ]

theorem normalizeBatch_counter_le :
    ∀ (vs : List JsVal) (st : WaveformSegments),
      (∀ segs st1, normalizeBatch st vs = Except.ok (segs, st1) →
        st.segmentIdCounter ≤ st1.segmentIdCounter) ∧
      (∀ msg st1, normalizeBatch st vs = Except.error (msg, st1) →
        st.segmentIdCounter ≤ st1.segmentIdCounter) := by
  intro vs
  induction vs with
  | nil =>
    intro st
    refine ⟨fun segs st1 h => ?_, fun msg st1 h => ?_⟩
    · simp [normalizeBatch] at h
      rw [← h.2]
    · simp [normalizeBatch] at h
  | cons v rest ih =>
    intro st
    cases v with
    | arr options =>
      refine ⟨fun segs st1 h => ?_, fun msg st1 h => ?_⟩
      · simp [normalizeBatch, _createSegment] at h
      · simp [normalizeBatch, _createSegment] at h
        rw [← h.2]
    | obj options =>
      have hle : st.segmentIdCounter ≤
          (createSegmentOpts st options).2.segmentIdCounter :=
        createSegmentOpts_counter_le st options
      rcases hcs : createSegmentOpts st options with ⟨segment, stA⟩
      rw [hcs] at hle
      cases hd : dictHas stA.segmentsById segment.id with
      | true =>
        refine ⟨fun segs st1 h => ?_, fun msg st1 h => ?_⟩
        · simp [normalizeBatch, _createSegment, hcs, hd] at h
        · simp [normalizeBatch, _createSegment, hcs, hd] at h
          rw [← h.2]
          exact hle
      | false =>
        refine ⟨fun segs st1 h => ?_, fun msg st1 h => ?_⟩
        · simp only [normalizeBatch, _createSegment, hcs, hd] at h
          rcases hnb : normalizeBatch stA rest with e | ⟨segs2, stB⟩
          · rw [hnb] at h
            simp at h
          · rw [hnb] at h
            simp at h
            rw [← h.2]
            exact Nat.le_trans hle ((ih stA).1 segs2 stB hnb)
        · simp only [normalizeBatch, _createSegment, hcs, hd] at h
          rcases hnb : normalizeBatch stA rest with ⟨msg2, stB⟩ | ok
          · rw [hnb] at h
            simp at h
            rw [← h.2]
            exact Nat.le_trans hle ((ih stA).2 msg2 stB hnb)
          · rw [hnb] at h
            simp at h

theorem foldl_addSegment_counter :
    ∀ (segs : List Segment) (st : WaveformSegments),
      (segs.foldl _addSegment st).segmentIdCounter = st.segmentIdCounter := by
  intro segs
  induction segs with
  | nil => intro st; rfl
  | cons s segs ih =>
    intro st
    rw [List.foldl_cons, ih]
    rfl

theorem applyOp_counter_le (st : WaveformSegments) (op : Op) :
    st.segmentIdCounter ≤ (applyOp st op).segmentIdCounter := by
  cases op with
  | add args =>
    simp only [applyOp, add]
    rcases hnb : normalizeBatch st (collectArgs args) with ⟨msg, st1⟩ | ⟨segs, st1⟩
    · exact (normalizeBatch_counter_le _ st).2 msg st1 hnb
    · show st.segmentIdCounter ≤ (segs.foldl _addSegment st1).segmentIdCounter
      rw [foldl_addSegment_counter]
      exact (normalizeBatch_counter_le _ st).1 segs st1 hnb
  | remove segment =>
    simp only [applyOp, remove]
    rw [_removeSegments_spec]
  | removeById segmentId =>
    simp only [applyOp, removeById]
    rw [_removeSegments_spec]
  | removeByTime startTime endTime =>
    simp only [applyOp, removeByTime]
    by_cases hc : endTime.getD 0 > 0
    · rw [if_pos hc, _removeSegments_spec]
    · rw [if_neg hc, _removeSegments_spec]
  | removeAll =>
    simp only [applyOp, removeAll]
    exact Nat.le_refl _

/-- The segments that normalizing a descriptor batch produces, in input
order, ignoring the duplicate-id validation (each descriptor's normalization
does not depend on the checks, so these are exactly the segments the `map`
step of `add` creates). -/
def normalizeAllObjs (st : WaveformSegments) :
    List SegmentOptions → List Segment
  | [] => []
  | options :: rest =>
    (createSegmentOpts st options).1 ::
      normalizeAllObjs (createSegmentOpts st options).2 rest

theorem createSegmentOpts_id_some (st : WaveformSegments)
    (options : SegmentOptions) (i : String) (h : options.id = some i) :
    (createSegmentOpts st options).1.id = i := by
  unfold createSegmentOpts
  rw [h]

theorem normalizeBatch_objs_collision :
    ∀ (batch : List SegmentOptions) (st : WaveformSegments),
      (∃ s ∈ normalizeAllObjs st batch,
        dictHas st.segmentsById s.id = true) →
      ∃ st1, normalizeBatch st (batch.map JsVal.obj) =
          Except.error ("peaks.segments.add(): duplicate id", st1) := by
  intro batch
  induction batch with
  | nil =>
    intro st h
    rcases h with ⟨s, hs, _⟩
    simp [normalizeAllObjs] at hs
  | cons options rest ih =>
    intro st h
    have hfr := createSegmentOpts_frame st options
    rcases hcs : createSegmentOpts st options with ⟨segment, stA⟩
    rw [hcs] at hfr
    simp only [normalizeAllObjs, hcs] at h
    cases hd : dictHas stA.segmentsById segment.id with
    | true =>
      refine ⟨stA, ?_⟩
      simp [normalizeBatch, _createSegment, hcs, hd]
    | false =>
      rcases h with ⟨s, hs, hcol⟩
      rcases List.mem_cons.mp hs with rfl | hs2
      · rw [← hfr.2.1] at hcol
        rw [hcol] at hd
        simp at hd
      · have htail : ∃ s ∈ normalizeAllObjs stA rest,
            dictHas stA.segmentsById s.id = true := by
          refine ⟨s, hs2, ?_⟩
          rw [hfr.2.1]
          exact hcol
        rcases ih stA htail with ⟨st1, hnb⟩
        refine ⟨st1, ?_⟩
        simp [normalizeBatch, _createSegment, hcs, hd, hnb]

theorem normalizeBatch_objs_ok :
    ∀ (batch : List SegmentOptions) (st : WaveformSegments),
      (∀ d ∈ batch, ∃ i, d.id = some i ∧
        dictHas st.segmentsById i = false) →
      ∃ st1, normalizeBatch st (batch.map JsVal.obj) =
          Except.ok (normalizeAllObjs st batch, st1) := by
  intro batch
  induction batch with
  | nil => intro st _; exact ⟨st, rfl⟩
  | cons options rest ih =>
    intro st h
    rcases h options (List.mem_cons_self options rest) with ⟨i, hid, hhas⟩
    have hfr := createSegmentOpts_frame st options
    have hsid := createSegmentOpts_id_some st options i hid
    rcases hcs : createSegmentOpts st options with ⟨segment, stA⟩
    rw [hcs] at hfr hsid
    have hd : dictHas stA.segmentsById segment.id = false := by
      rw [hfr.2.1, hsid]
      exact hhas
    have htail : ∀ d ∈ rest, ∃ i, d.id = some i ∧
        dictHas stA.segmentsById i = false := by
      intro d hd2
      rcases h d (List.mem_cons_of_mem options hd2) with ⟨j, hj1, hj2⟩
      refine ⟨j, hj1, ?_⟩
      rw [hfr.2.1]
      exact hj2
    rcases ih stA htail with ⟨st1, hnb⟩
    refine ⟨st1, ?_⟩
    simp [normalizeBatch, _createSegment, hcs, hd, hnb, normalizeAllObjs]

theorem normalizeAllObjs_ids :
    ∀ (batch : List SegmentOptions) (st : WaveformSegments),
      (∀ d ∈ batch, d.id.isSome) →
      (normalizeAllObjs st batch).map Segment.id =
        batch.map (fun d => d.id.getD "") := by
  intro batch
  induction batch with
  | nil => intro st _; rfl
  | cons options rest ih =>
    intro st h
    rcases Option.isSome_iff_exists.mp
      (h options (List.mem_cons_self options rest)) with ⟨i, hid⟩
    have hsid := createSegmentOpts_id_some st options i hid
    rcases hcs : createSegmentOpts st options with ⟨segment, stA⟩
    rw [hcs] at hsid
    simp only [normalizeAllObjs, hcs, List.map_cons]
    rw [hsid, hid, ih stA (fun d hd => h d (List.mem_cons_of_mem options hd))]
    rfl

theorem foldl_addSegment_segments :
    ∀ (segs : List Segment) (st : WaveformSegments),
      (segs.foldl _addSegment st).segments = st.segments ++ segs := by
  intro segs
  induction segs with
  | nil => intro st; simp
  | cons s segs ih =>
    intro st
    rw [List.foldl_cons, ih]
    simp [_addSegment]

/-- Claim C5 (confirmed): `getSegmentsAtTime t` returns exactly the segments
whose interval contains `t` under half-open semantics
(`startTime <= t < endTime`): a segment is included when `t` equals its
`startTime` and excluded when `t` equals its `endTime`; and the result is a
sublist of `ordered`, hence preserves its relative order. -/
theorem c5_half_open_containment (st : WaveformSegments) (t : Rat) :
    (getSegmentsAtTime st t).Sublist st.segments ∧
    (∀ s : Segment, s ∈ getSegmentsAtTime st t ↔
      s ∈ st.segments ∧ s.startTime ≤ t ∧ t < s.endTime) := by
  constructor
  · exact List.filter_sublist st.segments
  · intro s
    unfold getSegmentsAtTime
    rw [List.mem_filter]
    simp [ge_iff_le]

/-- Claim C2 (confirmed): for every predicate and repository state, the
predicate-driven removal algorithm (`_findSegment` plus the drift-compensated
`_removeIndexes` loop, as used by `remove`, `removeById` and `removeByTime`)
removes exactly the elements of `ordered` satisfying the predicate — no wrong
element is removed and no matching element skipped — returns and announces
them in their original order, deletes each removed element's id entry from
`byId`, and leaves the survivors (exactly the non-matching elements) in their
original relative order. -/
theorem c2_predicate_removal_correct (st : WaveformSegments)
    (p : Segment → Bool) :
    _removeSegments st p =
      some (st.segments.filter p,
        { st with
          segments := st.segments.filter (fun s => !(p s)),
          segmentsById :=
            dictDeleteAll st.segmentsById (st.segments.filter p) },
        Event.segmentsRemove (st.segments.filter p)) ∧
    (st.segments.filter (fun s => !(p s))).Sublist st.segments :=
  ⟨_removeSegments_spec st p, List.filter_sublist st.segments⟩

/-- Claim C10 (confirmed): calling `add` with two positional descriptor
arguments (the first not an array) behaves identically to calling it with a
single two-element batch array: the arguments are collected into one batch,
validated, inserted in order, and announced in one notification — the results
agree exactly, state, error and event included. -/
theorem c10_variadic_add (st : WaveformSegments) (d1 d2 : SegmentOptions) :
    add st [JsVal.obj d1, JsVal.obj d2] = add st [JsVal.arr [d1, d2]] := rfl

/-- Claim C7 (confirmed): a descriptor whose id is absent (or null) is
assigned the string `'peaks.segment.' + idCounter` for the current counter
value, and the counter is post-incremented; `autoSegmentId` is injective, so
two different counter values never yield the same automatic id, and no public
operation ever decreases the counter, so automatically issued ids are
pairwise distinct over the lifetime of a repository instance. -/
theorem c7_auto_id_policy :
    (∀ (st : WaveformSegments) (options : SegmentOptions),
      options.id = none →
      (createSegmentOpts st options).1.id =
        autoSegmentId st.segmentIdCounter ∧
      (createSegmentOpts st options).2.segmentIdCounter =
        st.segmentIdCounter + 1) ∧
    Function.Injective autoSegmentId ∧
    (∀ (st : WaveformSegments) (op : Op),
      st.segmentIdCounter ≤ (applyOp st op).segmentIdCounter) :=
  ⟨createSegmentOpts_id_none, autoSegmentId_injective, applyOp_counter_le⟩

/-- Host options used by the concrete witnesses and counterexamples. -/
def witnessOptions : PeaksOptions :=
  { randomizeSegmentColor := false, segmentColor := "#0074d9" }

/-- Witness for C7: on a fresh repository, a descriptor without id receives
`"peaks.segment.0"` and the counter moves to `1`; the ids issued at counter
values `0` and `1` differ. -/
theorem c7_witness :
    (createSegmentOpts (initialState witnessOptions)
        { startTime := 0, endTime := 1 }).1.id = autoSegmentId 0 ∧
    (createSegmentOpts (initialState witnessOptions)
        { startTime := 0, endTime := 1 }).2.segmentIdCounter = 1 ∧
    autoSegmentId 0 ≠ autoSegmentId 1 := by
  refine ⟨(c7_auto_id_policy.1 (initialState witnessOptions)
      { startTime := 0, endTime := 1 } rfl).1,
    (c7_auto_id_policy.1 (initialState witnessOptions)
      { startTime := 0, endTime := 1 } rfl).2, ?_⟩
  intro h
  exact absurd (c7_auto_id_policy.2.1 h) (by decide)

/-- Concrete fresh repository state for the C9 counterexample. -/
def c9State : WaveformSegments := initialState witnessOptions

/-- Concrete descriptor without an explicit id for the C9 counterexample. -/
def c9Descriptor : SegmentOptions := { startTime := 0, endTime := 10 }

/-- Claim C9 counterexample: normalizing a descriptor that omits `id`
advances the repository's id counter from 0 to 1, so the normalization step
is not pure — it does touch repository state (the id counter), contrary to
the claim. -/
theorem c9_counterexample :
    (createSegmentOpts c9State c9Descriptor).2 ≠ c9State ∧
    (createSegmentOpts c9State c9Descriptor).2.segmentIdCounter = 1 ∧
    c9State.segmentIdCounter = 0 := by
  decide

/-- Claim C9 amended (proved): the normalization step of `add` never touches
the segment indexes or the host options — both a single `_createSegment` and
the whole batch `map` step leave `_segments`, `_segmentsById` and `options`
unchanged — although it may advance the id counter and the color cursor. -/
theorem c9_normalization_frame_amended :
    (∀ (st : WaveformSegments) (v : JsVal) (segment : Segment)
      (st1 : WaveformSegments),
      _createSegment st v = Except.ok (segment, st1) →
      st1.segments = st.segments ∧ st1.segmentsById = st.segmentsById ∧
      st1.options = st.options) ∧
    (∀ (st : WaveformSegments) (vs : List JsVal) (segs : List Segment)
      (st1 : WaveformSegments),
      normalizeBatch st vs = Except.ok (segs, st1) →
      st1.segments = st.segments ∧ st1.segmentsById = st.segmentsById ∧
      st1.options = st.options) := by
  constructor
  · intro st v segment st1 h
    cases v with
    | arr options => simp [_createSegment] at h
    | obj options =>
      have hfr := createSegmentOpts_frame st options
      simp only [_createSegment, Except.ok.injEq] at h
      rw [h] at hfr
      exact hfr
  · intro st vs segs st1 h
    exact (normalizeBatch_frame vs st).1 segs st1 h

/-- Witness for C9's amended claim at a concrete input: normalizing the C9
descriptor leaves the indexes and options of the fresh state unchanged. -/
theorem c9_witness :
    (createSegmentOpts c9State c9Descriptor).2.segments = c9State.segments ∧
    (createSegmentOpts c9State c9Descriptor).2.segmentsById =
      c9State.segmentsById ∧
    (createSegmentOpts c9State c9Descriptor).2.options = c9State.options :=
  c9_normalization_frame_amended.1 c9State (JsVal.obj c9Descriptor)
    (createSegmentOpts c9State c9Descriptor).1
    (createSegmentOpts c9State c9Descriptor).2 rfl

/-- Claim C3 (confirmed): if some descriptor of the batch normalizes to an id
already present in `byId`, `add` throws the duplicate-id error; no segment
from the batch is inserted into `ordered` or `byId` — both indexes, hence the
segment count, are unchanged — and no notification is emitted (the `err`
result of `add` carries no event, the throw unwinding before the `emit`). -/
theorem c3_duplicate_id_atomic (st : WaveformSegments)
    (batch : List SegmentOptions)
    (h : ∃ s ∈ normalizeAllObjs st batch,
      dictHas st.segmentsById s.id = true) :
    ∃ st1, add st [JsVal.arr batch] =
        AddResult.err "peaks.segments.add(): duplicate id" st1 ∧
      st1.segments = st.segments ∧
      st1.segmentsById = st.segmentsById := by
  rcases normalizeBatch_objs_collision batch st h with ⟨st1, hnb⟩
  have hfr := (normalizeBatch_frame (batch.map JsVal.obj) st).2 _ st1 hnb
  refine ⟨st1, ?_, hfr.1, hfr.2.1⟩
  have hc : collectArgs [JsVal.arr batch] = batch.map JsVal.obj := rfl
  unfold add
  rw [hc, hnb]

/-- Concrete repository holding a segment with id "x", for the C3 witness. -/
def c3State : WaveformSegments :=
  { options := witnessOptions
    segments := [⟨"x", 0, 1, false, "#0074d9", ""⟩]
    segmentsById := [("x", ⟨"x", 0, 1, false, "#0074d9", ""⟩)]
    segmentIdCounter := 0
    colorIndex := 0 }

/-- A batch whose only descriptor reuses the existing id "x". -/
def c3Batch : List SegmentOptions :=
  [{ id := some "x", startTime := 2, endTime := 3, editable := some false,
     color := some "#ff0000", labelText := some "" }]

/-- Witness for C3 at a concrete input: adding a descriptor that reuses the
existing id "x" throws the duplicate-id error and leaves both indexes
unchanged. -/
theorem c3_witness :
    ∃ st1, add c3State [JsVal.arr c3Batch] =
        AddResult.err "peaks.segments.add(): duplicate id" st1 ∧
      st1.segments = c3State.segments ∧
      st1.segmentsById = c3State.segmentsById :=
  c3_duplicate_id_atomic c3State c3Batch
    ⟨⟨"x", 2, 3, false, "#ff0000", ""⟩, by decide, by decide⟩

/-- Concrete repository holding a segment with id "y", for C4. -/
def c4State : WaveformSegments :=
  { options := witnessOptions
    segments := [⟨"y", 0, 1, false, "#0074d9", ""⟩]
    segmentsById := [("y", ⟨"y", 0, 1, false, "#0074d9", ""⟩)]
    segmentIdCounter := 0
    colorIndex := 0 }

/-- A batch with two descriptors sharing the fresh explicit id "x" and a
third descriptor whose id "y" collides with the existing index. -/
def c4Batch : List SegmentOptions :=
  [{ id := some "x", startTime := 2, endTime := 3, editable := some false,
     color := some "#ffffff", labelText := some "" },
   { id := some "x", startTime := 4, endTime := 5, editable := some false,
     color := some "#ffffff", labelText := some "" },
   { id := some "y", startTime := 6, endTime := 7, editable := some false,
     color := some "#ffffff", labelText := some "" }]

/-- Claim C4 counterexample: this batch contains two descriptors with the
same explicit id "x" not present in `byId`, yet `add` throws (the third
descriptor collides with "y") and inserts nothing — the two "x" descriptors
do NOT both get inserted, so the claim fails as universally stated over all
batches containing such a pair. -/
theorem c4_counterexample :
    c4Batch.map SegmentOptions.id = [some "x", some "x", some "y"] ∧
    dictHas c4State.segmentsById "x" = false ∧
    add c4State [JsVal.arr c4Batch] =
      AddResult.err "peaks.segments.add(): duplicate id" c4State ∧
    (applyOp c4State (Op.add [JsVal.arr c4Batch])).segments.length = 1 := by
  decide

/-- Claim C4 amended (proved): for every repository state and every batch of
descriptors all carrying explicit ids absent from the pre-existing `byId`
index, if the batch's own ids contain a duplicate then `add` succeeds — the
duplicate-id check compares only against the pre-existing index, not against
sibling entries of the same call — every normalized segment is appended to
`ordered`, and `ordered` is left with two elements sharing an id (its id list
is not duplicate-free, violating I2). -/
theorem c4_intra_batch_duplicate_amended (st : WaveformSegments)
    (batch : List SegmentOptions)
    (hexp : ∀ d ∈ batch, d.id.isSome = true ∧
      dictHas st.segmentsById (d.id.getD "") = false)
    (hdup : ¬ (batch.map SegmentOptions.id).Nodup) :
    ∃ st1, add st [JsVal.arr batch] =
        AddResult.ok st1 (Event.segmentsAdd (normalizeAllObjs st batch)) ∧
      st1.segments = st.segments ++ normalizeAllObjs st batch ∧
      ¬ (st1.segments.map Segment.id).Nodup := by
  have hexp2 : ∀ d ∈ batch, ∃ i, d.id = some i ∧
      dictHas st.segmentsById i = false := by
    intro d hd
    rcases hexp d hd with ⟨h1, h2⟩
    cases hid : d.id with
    | none => rw [hid] at h1; simp at h1
    | some i =>
      refine ⟨i, rfl, ?_⟩
      rw [hid] at h2
      exact h2
  rcases normalizeBatch_objs_ok batch st hexp2 with ⟨stA, hnb⟩
  have hfr := (normalizeBatch_frame (batch.map JsVal.obj) st).1 _ stA hnb
  have hc : collectArgs [JsVal.arr batch] = batch.map JsVal.obj := rfl
  have hids : (normalizeAllObjs st batch).map Segment.id =
      batch.map (fun d => d.id.getD "") :=
    normalizeAllObjs_ids batch st (fun d hd => (hexp d hd).1)
  refine ⟨(normalizeAllObjs st batch).foldl _addSegment stA, ?_, ?_, ?_⟩
  · unfold add
    rw [hc, hnb]
  · rw [foldl_addSegment_segments, hfr.1]
  · rw [foldl_addSegment_segments]
    intro hnd
    rw [List.map_append] at hnd
    have hr := List.Nodup.of_append_right hnd
    rw [hids] at hr
    apply hdup
    have hcomp : batch.map (fun d => d.id.getD "") =
        (batch.map SegmentOptions.id).map (fun o => o.getD "") := by
      rw [List.map_map]
      rfl
    rw [hcomp] at hr
    exact List.Nodup.of_map _ hr

/-- A batch of two descriptors sharing the fresh explicit id "x". -/
def c4DupBatch : List SegmentOptions :=
  [{ id := some "x", startTime := 2, endTime := 3, editable := some false,
     color := some "#ffffff", labelText := some "" },
   { id := some "x", startTime := 4, endTime := 5, editable := some false,
     color := some "#ffffff", labelText := some "" }]

/-- Witness for C4's amended claim at a concrete input: both "x" descriptors
pass validation and both are inserted, leaving duplicate ids in `ordered`. -/
theorem c4_witness :
    ∃ st1, add c4State [JsVal.arr c4DupBatch] =
        AddResult.ok st1
          (Event.segmentsAdd (normalizeAllObjs c4State c4DupBatch)) ∧
      st1.segments = c4State.segments ++ normalizeAllObjs c4State c4DupBatch ∧
      ¬ (st1.segments.map Segment.id).Nodup :=
  c4_intra_batch_duplicate_amended c4State c4DupBatch (by decide) (by decide)

/-- A single `add` whose batch holds two descriptors sharing the explicit id
"x": the intra-batch duplicate gap. -/
def c1DupOps : List Op :=
  [Op.add [JsVal.arr
    [{ id := some "x", startTime := 0, endTime := 1, editable := some false,
       color := some "#ffffff", labelText := some "" },
     { id := some "x", startTime := 2, endTime := 3, editable := some false,
       color := some "#ffffff", labelText := some "" }]]]

/-- Claim C1 counterexample: from a fresh repository, one public `add` whose
batch carries an intra-batch duplicate id leaves `ordered` with two segments
sharing id "x" while `byId` holds a single entry — the sizes differ and the
ids are not pairwise distinct, so the dual-index invariant fails after this
sequence of public operations. -/
theorem c1_counterexample :
    ¬ SegmentsInvariant (runOps witnessOptions c1DupOps) := by
  decide

/-- Claim C1 amended (proved): after any sequence of public operations on a
fresh repository in which every `add`'s batch normalizes to pairwise-distinct
ids (ruling out the intra-batch duplicate gap), the dual-index consistency
invariant holds: every segment of `ordered` is mapped by `byId` under its id,
the sizes of `ordered` and `byId` agree, and no two elements of `ordered`
share an id. -/
theorem c1_dual_index_invariant_amended (peaksOptions : PeaksOptions)
    (ops : List Op) (h : traceOk (initialState peaksOptions) ops = true) :
    SegmentsInvariant (runOps peaksOptions ops) := by
  apply reprInvariant_segmentsInvariant
  exact runOpsFrom_reprInvariant ops (initialState peaksOptions)
    ⟨by simp [initialState], rfl⟩ h

/-- A benign operation sequence exercising every public mutator: an auto-id
add, an explicit-id add, then the three removal forms. -/
def c1GoodOps : List Op :=
  [Op.add [JsVal.obj { startTime := 0, endTime := 10 }],
   Op.add [JsVal.obj { id := some "a", startTime := 1, endTime := 2 }],
   Op.removeById "a",
   Op.removeByTime 0 none,
   Op.removeAll]

/-- Witness for C1's amended claim at a concrete trace. -/
theorem c1_witness :
    traceOk (initialState witnessOptions) c1GoodOps = true ∧
    SegmentsInvariant (runOps witnessOptions c1GoodOps) :=
  ⟨by decide,
   c1_dual_index_invariant_amended witnessOptions c1GoodOps (by decide)⟩

/-- Claim C8 (confirmed): when `endTime` is omitted or not greater than zero,
`removeByTime` removes exactly the segments whose `startTime` equals the
given start time; when `endTime` is greater than zero it removes exactly the
segments whose `startTime` and `endTime` both match the given values; in both
cases the removed segments are returned and announced and the survivors keep
their relative order. -/
theorem c8_remove_by_time_dispatch (st : WaveformSegments) (startTime : Rat)
    (endTime : Option Rat) :
    ((endTime = none ∨ ∃ e, endTime = some e ∧ ¬ e > 0) →
      removeByTime st startTime endTime =
        some (st.segments.filter (fun s => s.startTime == startTime),
          { st with
            segments :=
              st.segments.filter (fun s => !(s.startTime == startTime)),
            segmentsById := dictDeleteAll st.segmentsById
              (st.segments.filter (fun s => s.startTime == startTime)) },
          Event.segmentsRemove
            (st.segments.filter (fun s => s.startTime == startTime)))) ∧
    (∀ e, endTime = some e → e > 0 →
      removeByTime st startTime endTime =
        some (st.segments.filter
            (fun s => s.startTime == startTime && s.endTime == e),
          { st with
            segments := st.segments.filter
              (fun s => !(s.startTime == startTime && s.endTime == e)),
            segmentsById := dictDeleteAll st.segmentsById
              (st.segments.filter
                (fun s => s.startTime == startTime && s.endTime == e)) },
          Event.segmentsRemove
            (st.segments.filter
              (fun s => s.startTime == startTime && s.endTime == e)))) := by
  constructor
  · intro hcase
    have he : ¬ endTime.getD 0 > 0 := by
      rcases hcase with rfl | ⟨e, rfl, hle⟩
      · simp
      · simpa using hle
    simp only [removeByTime]
    rw [if_neg he]
    exact _removeSegments_spec st _
  · intro e he hpos
    subst he
    have hgt : (Option.some e).getD 0 > 0 := by simpa using hpos
    simp only [removeByTime]
    rw [if_pos hgt]
    exact _removeSegments_spec st _

/-- Concrete repository with segments `[0,10)` (id "a") and `[10,20)`
(id "b"), the spec's own scenario for `removeByTime`. -/
def c8State : WaveformSegments :=
  { options := witnessOptions
    segments := [⟨"a", 0, 10, false, "#0074d9", ""⟩,
                 ⟨"b", 10, 20, false, "#0074d9", ""⟩]
    segmentsById := [("a", ⟨"a", 0, 10, false, "#0074d9", ""⟩),
                     ("b", ⟨"b", 10, 20, false, "#0074d9", ""⟩)]
    segmentIdCounter := 0
    colorIndex := 0 }

/-- Witness for C8 at the spec scenario: `removeByTime 10` (no end time)
matches by start time only, and `removeByTime 0 10` matches by both times. -/
theorem c8_witness :
    removeByTime c8State 10 none =
      some (c8State.segments.filter (fun s => s.startTime == (10 : Rat)),
        { c8State with
          segments := c8State.segments.filter
            (fun s => !(s.startTime == (10 : Rat))),
          segmentsById := dictDeleteAll c8State.segmentsById
            (c8State.segments.filter
              (fun s => s.startTime == (10 : Rat))) },
        Event.segmentsRemove
          (c8State.segments.filter
            (fun s => s.startTime == (10 : Rat)))) ∧
    removeByTime c8State 0 (some 10) =
      some (c8State.segments.filter
          (fun s => s.startTime == (0 : Rat) && s.endTime == (10 : Rat)),
        { c8State with
          segments := c8State.segments.filter
            (fun s => !(s.startTime == (0 : Rat) && s.endTime == (10 : Rat))),
          segmentsById := dictDeleteAll c8State.segmentsById
            (c8State.segments.filter
              (fun s => s.startTime == (0 : Rat) &&
                s.endTime == (10 : Rat))) },
        Event.segmentsRemove
          (c8State.segments.filter
            (fun s => s.startTime == (0 : Rat) &&
              s.endTime == (10 : Rat)))) :=
  ⟨(c8_remove_by_time_dispatch c8State 10 none).1 (Or.inl rfl),
   (c8_remove_by_time_dispatch c8State 0 (some 10)).2 10 rfl (by norm_num)⟩
